import Mathlib

/-!
Verification development for the document-generation server (the "docmaker"
core of this repository).  The JavaScript source is embedded shallowly:
pure functions become Lean functions over `String` / `List Char` /
`List Nat` (byte buffers); external I/O (conversion backends, SMTP, the
Windows automation bridge) is passed in as explicit outcome parameters, and
console warnings are returned as explicit log values.  JS strings are
modelled by Lean strings, JS `null`/`undefined` by `Option`, JS objects by
association lists with the relevant access semantics spelled out at each
use site.
-/

set_option maxRecDepth 4000

/-! ## Basic JS string semantics -/

/-- Characters matched by the JS `\s` class (the ASCII portion, which is all
the server's data ever exercises): space, tab, line feed, vertical tab,
form feed, carriage return. -/
def isJsSpace (c : Char) : Bool :=
  c = ' ' || c = '\t' || c = '\n' || c = '\x0b' || c = '\x0c' || c = '\r'

/-- Drop the leading JS-whitespace of a character list. -/
def dropLeadingSpace (l : List Char) : List Char :=
  l.dropWhile isJsSpace

/-- Model of JS `String.prototype.trim` on a character list. -/
def jsTrimChars (l : List Char) : List Char :=
  (dropLeadingSpace ((dropLeadingSpace l.reverse).reverse))

/-- Model of JS `String.prototype.trim`. -/
def jsTrim (s : String) : String :=
  String.mk (jsTrimChars s.data)

/-- Model of JS `String.prototype.toLowerCase` (ASCII case folding, which is
what the server's column names and group values exercise). -/
def jsLower (s : String) : String :=
  String.mk (s.data.map Char.toLower)

/-- Test performed by the JS regex check on a leading whitespace character
(the code applies it as a test on the first character of a prefix string). -/
def startsWithSpace (s : String) : Bool :=
  match s.data with
  | [] => false
  | c :: _ => isJsSpace c

/-! ## Row access and cell sanitization (`getRowValue`, `sanitizeCellValue`) -/

/-- A dataset row: an association list from (already trimmed, per
`normalizeRowKeys`) column names to raw cell values, in object-key order.
Cell values are modelled after JS `String(value)` coercion, which the code
applies before any use. -/
abbrev Row := List (String × String)

/-- Plain JS property read `row[key]`: the value stored at the exact key,
or `""` when absent (the code only reads keys it found). -/
def rowGet (row : Row) (key : String) : String :=
  match row.find? (fun kv => kv.1 = key) with
  | some kv => kv.2
  | none => ""

/-- Model of `sanitizeCellValue`: for a string cell the code deletes every
double-quote character (`value.replace(/\"/g, "")`) and returns the result;
for non-string cells it returns `String(value)` unchanged, which never
contains a double quote, so quote deletion is the whole observable
behavior. -/
def sanitizeCellValue (rawValue : String) : String :=
  String.mk (rawValue.data.filter (fun c => c ≠ '\"'))

/-- Model of `getRowValue`: empty column name yields `""`; an exact
own-property hit returns that value; otherwise the first key whose trimmed,
lower-cased form equals the trimmed, lower-cased column name is used (and a
falsy — empty — found key yields `""`, per `key ? row[key] : ""`). -/
def getRowValue (row : Row) (columnName : String) : String :=
  if columnName = "" then ""
  else
    match row.find? (fun kv => kv.1 = columnName) with
    | some kv => kv.2
    | none =>
      let target := jsLower (jsTrim columnName)
      if target = "" then ""
      else
        match row.find? (fun kv => jsLower (jsTrim kv.1) = target) with
        | some kv => if kv.1 = "" then "" else rowGet row kv.1
        | none => ""

/-! ## The row resolver (`resolveRowValues`, `buildListPrefix`) -/

/-- Constant `LIST_SEPARATOR` of the server. -/
def LIST_SEPARATOR : String := ", "

/-- Constant `LIST_CONJUNCTION` of the server. -/
def LIST_CONJUNCTION : String := "e"

/-- One mapping entry as supplied with a job: placeholder name, source
column, optional literal prefix and optional group tag (absent fields are
the empty string, matching the falsy checks in the code). -/
structure MappingEntry where
  placeholder : String
  column : String
  pfx : String
  group : String
  deriving Repr, DecidableEq

/-- The per-entry record built by the first pass of `resolveRowValues`. -/
structure RItem where
  index : Nat
  key : String
  value : String
  trimmed : String
  hasValue : Bool
  pfx : String
  group : String
  deriving Repr, DecidableEq

/-- Key derivation for one mapping entry: strip one leading pair and one
trailing pair of placeholder braces from the placeholder name, if present. -/
def stripKeyBraces (s : String) : String :=
  let l := s.data
  let l1 := if l.take 2 = ['{', '{'] then l.drop 2 else l
  let l2 := if l1.reverse.take 2 = ['}', '}'] then (l1.reverse.drop 2).reverse else l1
  String.mk l2

/-- Builder for one `RItem` of the first pass of `resolveRowValues`. -/
def mkRItem (row : Row) (i : Nat) (item : MappingEntry) : RItem :=
  let value := sanitizeCellValue (getRowValue row item.column)
  let trimmed := jsTrim value
  { index := i
    key := stripKeyBraces item.placeholder
    value := value
    trimmed := trimmed
    hasValue := trimmed ≠ ""
    pfx := item.pfx
    group := jsTrim item.group }

/-- First pass of `resolveRowValues`: build one `RItem` per mapping entry,
in declaration order, carrying its position. -/
def resolveItems (mapping : List MappingEntry) (row : Row) : List RItem :=
  mapping.enum.map fun p => mkRItem row p.1 p.2

/-- State of the duplicate-suppression pass: the `seenByGroup` map of the
code, read extensionally — for each group tag, the normalized (trimmed,
lower-cased) values already seen in that group. -/
abbrev SeenMap := String → List String

/-- Record a normalized value for a group (a `Map.set` on `seenByGroup`). -/
def seenAdd (seen : SeenMap) (g v : String) : SeenMap :=
  fun g' => if g' = g then v :: seen g else seen g'

/-- Second pass of `resolveRowValues` (the `seenByGroup` forEach): walk the
items in order; an item with a non-empty group and a value already seen in
that group has its `hasValue` flag cleared, otherwise its normalized value
is recorded. -/
def dedupPass : List RItem → SeenMap → List RItem
  | [], _ => []
  | it :: rest, seen =>
    if it.group = "" ∨ it.hasValue = false then
      it :: dedupPass rest seen
    else
      let normalized := jsLower it.trimmed
      if normalized ∈ seen it.group then
        { it with hasValue := false } :: dedupPass rest seen
      else
        it :: dedupPass rest (seenAdd seen it.group normalized)

/-- Model of `buildListPrefix`: position 0 (or a singleton group) keeps the
base prefix; the last of several present entries gets the conjunction
(plus a separating space when the prefix is non-empty and does not already
start with whitespace); middle entries get the separator. -/
def buildListPfx (basePfx : String) (position total : Nat) : String :=
  if total ≤ 1 ∨ position = 0 then basePfx
  else if position = total - 1 then
    let needsSpaceAfter := if basePfx ≠ "" ∧ ¬ startsWithSpace basePfx then " " else ""
    " " ++ LIST_CONJUNCTION ++ needsSpaceAfter ++ basePfx
  else LIST_SEPARATOR ++ basePfx

/-- Present entries of `it`'s group among the deduplicated items.  The code
collects each group's items into a `groups` map in item order, filters the
present ones and sorts by `index`; since items enter in strictly increasing
`index` order that sort is the identity, so the filtered list is used
directly here. -/
def groupPresent (items2 : List RItem) (g : String) : List RItem :=
  items2.filter (fun it => it.group = g ∧ it.hasValue)

/-- The `(pos, total)` pair the code stores in `positions` for a present
grouped item: its rank among the present items of its group, and the size
of that present list. -/
def groupPos (items2 : List RItem) (it : RItem) : Nat × Nat :=
  let present := groupPresent items2 it.group
  ((present.filter (fun p => p.index < it.index)).length, present.length)

/-- Final value the code assigns for one item (`values[item.key] = ...`):
empty when the item is absent or was suppressed, otherwise the (possibly
list-formatted) prefix followed by the sanitized — untrimmed — value. -/
def itemFinalValue (items2 : List RItem) (it : RItem) : String :=
  if it.hasValue = false then ""
  else
    if it.group = "" then it.pfx ++ it.value
    else
      let pt := groupPos items2 it
      buildListPfx it.pfx pt.1 pt.2 ++ it.value

/-- The ordered list of `(key, value)` assignments `resolveRowValues`
performs into its `values` object, one per mapping entry. -/
def resolvedAssignments (mapping : List MappingEntry) (row : Row) : List (String × String) :=
  let items2 := dedupPass (resolveItems mapping row) (fun _ => [])
  items2.map (fun it => (it.key, itemFinalValue items2 it))

/-- JS object assignment `obj[k] = v`: overwrite in place if the key
exists, otherwise append. -/
def objSet (m : List (String × String)) (k v : String) : List (String × String) :=
  if m.any (fun kv => kv.1 = k) then
    m.map (fun kv => if kv.1 = k then (kv.1, v) else kv)
  else m ++ [(k, v)]

/-- Model of `resolveRowValues`: the `values` object after all per-item
assignments have been applied in order. -/
def resolveRowValues (mapping : List MappingEntry) (row : Row) : List (String × String) :=
  (resolvedAssignments mapping row).foldl (fun m kv => objSet m kv.1 kv.2) []

/-! ## Characterization of the duplicate-suppression pass -/

/-- Test whether an earlier (already walked) item of the same group, present
in the raw data, carries the same normalized value. -/
def dupInPrev (prev : List RItem) (it : RItem) : Bool :=
  prev.any fun p =>
    decide (p.group = it.group) && p.hasValue && decide (jsLower p.trimmed = jsLower it.trimmed)

/-- Reference form of the suppression pass, carrying the walked items
instead of the seen-value map. -/
def dedupGo (prev : List RItem) : List RItem → List RItem
  | [] => []
  | it :: rest =>
    (if it.group ≠ "" ∧ it.hasValue = true ∧ dupInPrev prev it = true then
      { it with hasValue := false } else it) :: dedupGo (prev ++ [it]) rest

/-- Agreement between the seen-value map and the walked items. -/
def SeenInv (seen : SeenMap) (prev : List RItem) : Prop :=
  ∀ g, g ≠ "" → ∀ v,
    v ∈ seen g ↔ ∃ p ∈ prev, p.group = g ∧ p.hasValue = true ∧ jsLower p.trimmed = v

theorem dedupPass_eq_go (l : List RItem) : ∀ (seen : SeenMap) (prev : List RItem),
    SeenInv seen prev → dedupPass l seen = dedupGo prev l := by
  induction l with
  | nil => intro seen prev _; rfl
  | cons it rest ih =>
    intro seen prev hinv
    by_cases hskip : it.group = "" ∨ it.hasValue = false
    · rw [dedupPass, if_pos hskip, dedupGo]
      have hcond : ¬ (it.group ≠ "" ∧ it.hasValue = true ∧ dupInPrev prev it = true) := by
        rcases hskip with h | h
        · exact fun hc => hc.1 h
        · exact fun hc => by rw [h] at hc; exact Bool.false_ne_true hc.2.1
      rw [if_neg hcond]
      congr 1
      apply ih seen (prev ++ [it])
      intro g hg v
      rw [hinv g hg v]
      constructor
      · rintro ⟨p, hp, h1, h2, h3⟩
        exact ⟨p, List.mem_append.mpr (Or.inl hp), h1, h2, h3⟩
      · rintro ⟨p, hp, h1, h2, h3⟩
        rcases List.mem_append.mp hp with hp | hp
        · exact ⟨p, hp, h1, h2, h3⟩
        · rw [List.mem_singleton] at hp
          subst hp
          rcases hskip with h | h
          · exact absurd h1 (by rw [h]; exact fun hne => hg hne.symm)
          · rw [h] at h2; exact absurd h2 Bool.false_ne_true
    · push_neg at hskip
      obtain ⟨hg, hv⟩ := hskip
      have hv' : it.hasValue = true := by
        cases h : it.hasValue
        · exact absurd h hv
        · rfl
      rw [dedupPass, if_neg (by rw [hv']; rintro (h | h); exact hg h; exact Bool.noConfusion h)]
      by_cases hmem : jsLower it.trimmed ∈ seen it.group
      · rw [if_pos hmem, dedupGo]
        have hdup : dupInPrev prev it = true := by
          obtain ⟨p, hp, h1, h2, h3⟩ := (hinv it.group hg (jsLower it.trimmed)).mp hmem
          rw [dupInPrev, List.any_eq_true]
          exact ⟨p, hp, by simp [h1, h2, h3]⟩
        rw [if_pos ⟨hg, hv', hdup⟩]
        congr 1
        apply ih seen (prev ++ [it])
        intro g hg' v
        rw [hinv g hg' v]
        constructor
        · rintro ⟨p, hp, h1, h2, h3⟩
          exact ⟨p, List.mem_append.mpr (Or.inl hp), h1, h2, h3⟩
        · rintro ⟨p, hp, h1, h2, h3⟩
          rcases List.mem_append.mp hp with hp | hp
          · exact ⟨p, hp, h1, h2, h3⟩
          · rw [List.mem_singleton] at hp
            subst hp
            rw [h3, h1] at hmem
            exact (hinv g hg' v).mp hmem
      · rw [if_neg hmem, dedupGo]
        have hdup : ¬ dupInPrev prev it = true := by
          intro hdup
          rw [dupInPrev, List.any_eq_true] at hdup
          obtain ⟨p, hp, hpred⟩ := hdup
          simp only [Bool.and_eq_true, decide_eq_true_eq] at hpred
          exact hmem ((hinv it.group hg (jsLower it.trimmed)).mpr
            ⟨p, hp, hpred.1.1, hpred.1.2, hpred.2⟩)
        rw [if_neg (fun hc => hdup hc.2.2)]
        congr 1
        apply ih (seenAdd seen it.group (jsLower it.trimmed)) (prev ++ [it])
        intro g hg' v
        simp only [seenAdd]
        by_cases hgit : g = it.group
        · subst hgit
          rw [if_pos rfl, List.mem_cons, hinv it.group hg' v]
          constructor
          · rintro (h | ⟨p, hp, h1, h2, h3⟩)
            · exact ⟨it, List.mem_append.mpr (Or.inr (List.mem_singleton.mpr rfl)),
                rfl, hv', h.symm⟩
            · exact ⟨p, List.mem_append.mpr (Or.inl hp), h1, h2, h3⟩
          · rintro ⟨p, hp, h1, h2, h3⟩
            rcases List.mem_append.mp hp with hp | hp
            · exact Or.inr ⟨p, hp, h1, h2, h3⟩
            · rw [List.mem_singleton] at hp
              subst hp
              exact Or.inl h3.symm
        · rw [if_neg hgit, hinv g hg' v]
          constructor
          · rintro ⟨p, hp, h1, h2, h3⟩
            exact ⟨p, List.mem_append.mpr (Or.inl hp), h1, h2, h3⟩
          · rintro ⟨p, hp, h1, h2, h3⟩
            rcases List.mem_append.mp hp with hp | hp
            · exact ⟨p, hp, h1, h2, h3⟩
            · rw [List.mem_singleton] at hp
              subst hp
              exact absurd h1 (fun h => hgit h.symm)

theorem dedupGo_getElem? (l : List RItem) : ∀ (prev : List RItem) (j : Nat),
    (dedupGo prev l)[j]? = (l[j]?).map fun it =>
      if it.group ≠ "" ∧ it.hasValue = true ∧ dupInPrev (prev ++ l.take j) it = true then
        { it with hasValue := false } else it := by
  induction l with
  | nil => intro prev j; simp [dedupGo]
  | cons it rest ih =>
    intro prev j
    cases j with
    | zero => simp [dedupGo]
    | succ j =>
      rw [dedupGo]
      simp only [List.getElem?_cons_succ, List.take_succ_cons]
      rw [ih (prev ++ [it]) j]
      have harr : prev ++ [it] ++ rest.take j = prev ++ (it :: rest.take j) := by
        rw [List.append_assoc]; rfl
      rw [harr]

theorem dupInPrev_take_iff (l : List RItem) (j : Nat) (it : RItem) :
    dupInPrev (l.take j) it = true ↔
      ∃ i, i < j ∧ ∃ p, l[i]? = some p ∧ p.group = it.group ∧ p.hasValue = true ∧
        jsLower p.trimmed = jsLower it.trimmed := by
  rw [dupInPrev, List.any_eq_true]
  constructor
  · rintro ⟨p, hp, hpred⟩
    simp only [Bool.and_eq_true, decide_eq_true_eq] at hpred
    obtain ⟨i, hi, hget⟩ := List.mem_take_iff_getElem.mp hp
    refine ⟨i, lt_of_lt_of_le hi (min_le_left _ _), p, ?_, hpred.1.1, hpred.1.2, hpred.2⟩
    rw [List.getElem?_eq_getElem (lt_of_lt_of_le hi (min_le_right _ _)), hget]
  · rintro ⟨i, hij, p, hget, h1, h2, h3⟩
    have hlen : i < l.length := (List.getElem?_eq_some.mp hget).1
    refine ⟨p, List.mem_take_iff_getElem.mpr ⟨i, lt_min hij hlen, ?_⟩, by simp [h1, h2, h3]⟩
    have := (List.getElem?_eq_some.mp hget).2
    exact this

/-! ## Claim theorems for the row resolver -/

/-- C2: among mapping entries sharing the same non-empty group tag,
`resolveRowValues` keeps only the first entry (in declaration order)
carrying each distinct non-empty value compared case-insensitively after
trimming; a later entry of that group is suppressed exactly when an earlier
entry of the group carried the same normalized value, in which case its
assignment resolves to the empty string while its raw (sanitized) cell
value is left untouched. -/
theorem C2_group_dedup (mapping : List MappingEntry) (row : Row) (j : Nat) (itj : RItem)
    (hj : (resolveItems mapping row)[j]? = some itj)
    (hg : itj.group ≠ "") (hv : itj.hasValue = true) :
    ∃ itj', (dedupPass (resolveItems mapping row) (fun _ => []))[j]? = some itj' ∧
      itj'.value = itj.value ∧ itj'.key = itj.key ∧
      (itj'.hasValue = false ↔
        (∃ i, i < j ∧ ∃ iti, (resolveItems mapping row)[i]? = some iti ∧
          iti.group = itj.group ∧ iti.hasValue = true ∧
          jsLower iti.trimmed = jsLower itj.trimmed)) ∧
      (itj'.hasValue = false → (resolvedAssignments mapping row)[j]? = some (itj.key, "")) := by
  have hpass : dedupPass (resolveItems mapping row) (fun _ => []) =
      dedupGo [] (resolveItems mapping row) := by
    apply dedupPass_eq_go
    intro g hgne v
    simp [SeenInv]
  set l := resolveItems mapping row with hl
  have hget : (dedupGo [] l)[j]? = some (if itj.group ≠ "" ∧ itj.hasValue = true ∧
      dupInPrev ([] ++ l.take j) itj = true then { itj with hasValue := false } else itj) := by
    rw [dedupGo_getElem? l [] j, hj]
    rfl
  rw [List.nil_append] at hget
  by_cases hdup : dupInPrev (l.take j) itj = true
  · refine ⟨{ itj with hasValue := false }, ?_, rfl, rfl, ?_, ?_⟩
    · rw [hpass, hget, if_pos ⟨hg, hv, hdup⟩]
    · simp only [true_iff]
      exact (dupInPrev_take_iff l j itj).mp hdup
    · intro _
      rw [resolvedAssignments]
      simp only [← hl, hpass]
      rw [List.getElem?_map, hget, if_pos ⟨hg, hv, hdup⟩]
      rfl
  · refine ⟨itj, ?_, rfl, rfl, ?_, ?_⟩
    · rw [hpass, hget, if_neg (fun hc => hdup hc.2.2)]
    · rw [hv]
      simp only [Bool.true_eq_false, false_iff]
      intro hex
      exact hdup ((dupInPrev_take_iff l j itj).mpr hex)
    · intro hfalse
      rw [hv] at hfalse
      exact absurd hfalse (by simp)

/-- Witness for C2 at a concrete two-entry group where the second value
repeats the first up to case: the second assignment resolves to empty. -/
theorem C2_group_dedup_witness :
    (resolvedAssignments
      [⟨"k1", "c1", "", "g"⟩, ⟨"k2", "c2", "", "g"⟩]
      [("c1", "A"), ("c2", "a")])[1]? = some ("k2", "") := by
  obtain ⟨itj', hget, hval, hkey, hiff, himp⟩ :=
    C2_group_dedup [⟨"k1", "c1", "", "g"⟩, ⟨"k2", "c2", "", "g"⟩] [("c1", "A"), ("c2", "a")]
      1 (mkRItem [("c1", "A"), ("c2", "a")] 1 ⟨"k2", "c2", "", "g"⟩)
      (by decide) (by decide) (by decide)
  exact himp (hiff.mpr ⟨0, by decide,
    mkRItem [("c1", "A"), ("c2", "a")] 0 ⟨"k1", "c1", "", "g"⟩,
    by decide, by decide, by decide, by decide⟩)

/-- A three-entry mapping forming one group with distinct prefixes. -/
def mappingG3 : List MappingEntry :=
  [⟨"k1", "c1", "p1", "g"⟩, ⟨"k2", "c2", "p2", "g"⟩, ⟨"k3", "c3", "p3", "g"⟩]

/-- A row giving all three grouped columns distinct values. -/
def rowABC : Row := [("c1", "A"), ("c2", "B"), ("c3", "C")]

/-- A row where only the first grouped column has data. -/
def rowAonly : Row := [("c1", "A"), ("c2", ""), ("c3", "")]

/-- C3: among the present entries of a group in declaration order, the first
keeps its prefix unmodified, middle entries get the separator prepended,
and the last entry of a multi-entry group gets the conjunction prepended
before its own prefix; with one present entry nothing is added; with three
present entries with prefixes p1,p2,p3 and values A,B,C the resolved values
concatenate to the natural-language enumeration. -/
theorem C3_list_formatting :
    (∀ p t, buildListPfx p 0 t = p) ∧
    (∀ p pos t, 0 < pos → pos + 1 < t → buildListPfx p pos t = LIST_SEPARATOR ++ p) ∧
    (∀ p t, 1 < t → p ≠ "" → startsWithSpace p = false →
      buildListPfx p (t - 1) t = " e " ++ p) ∧
    resolveRowValues mappingG3 rowABC =
      [("k1", "p1A"), ("k2", ", p2B"), ("k3", " e p3C")] ∧
    "p1A" ++ ", p2B" ++ " e p3C" = "p1A, p2B e p3C" ∧
    resolveRowValues mappingG3 rowAonly = [("k1", "p1A"), ("k2", ""), ("k3", "")] := by
  refine ⟨?_, ?_, ?_, by decide, by decide, by decide⟩
  · intro p t
    rw [buildListPfx, if_pos (Or.inr rfl)]
  · intro p pos t h1 h2
    rw [buildListPfx, if_neg (by omega), if_neg (by omega)]
  · intro p t h1 h2 h3
    rw [buildListPfx, if_neg (by omega), if_pos rfl]
    simp only [h2, h3, ne_eq, not_false_iff, Bool.false_eq_true, and_true, if_pos]
    congr 1

/-- Witness for C3 at concrete middle and last positions. -/
theorem C3_list_formatting_witness :
    buildListPfx "p2" 1 3 = ", p2" ∧ buildListPfx "p3" 2 3 = " e p3" := by
  refine ⟨C3_list_formatting.2.1 "p2" 1 3 (by decide) (by decide), ?_⟩
  have h := C3_list_formatting.2.2.1 "p3" 3 (by decide) (by decide) (by decide)
  exact h

/-- C8 counterexample: `sanitizeCellValue` returns a value that still
contains its control character (a line feed) and its leading and trailing
blanks — nothing is normalized, stripped, collapsed, trimmed or truncated,
contradicting the claimed sanitization steps. -/
theorem C8_counterexample :
    sanitizeCellValue " a\n\tb " = " a\n\tb " ∧
    '\n' ∈ (sanitizeCellValue " a\n\tb ").data ∧
    jsTrim (sanitizeCellValue " a\n\tb ") ≠ sanitizeCellValue " a\n\tb " := by
  decide

/-- C8 as amended: the resolver fetches the raw cell value by
case-insensitive column lookup and sanitizes it only by deleting
double-quote characters from the string-coerced value (keeping every other
character, in order, and leaving quote-free values untouched); it records
whether the trimmed sanitized value is non-empty. -/
theorem C8_lookup_sanitize :
    (∀ s : String, '\"' ∉ (sanitizeCellValue s).data ∧
      List.Sublist (sanitizeCellValue s).data s.data) ∧
    (∀ s : String, (∀ c ∈ s.data, c ≠ '\"') → sanitizeCellValue s = s) ∧
    (∀ (row : Row) (c1 c2 : String), c1 ≠ "" → c2 ≠ "" →
      row.find? (fun kv => kv.1 = c1) = none → row.find? (fun kv => kv.1 = c2) = none →
      jsLower (jsTrim c1) = jsLower (jsTrim c2) →
      getRowValue row c1 = getRowValue row c2) ∧
    (∀ (mapping : List MappingEntry) (row : Row) (i : Nat) (entry : MappingEntry),
      mapping[i]? = some entry →
      ∃ it, (resolveItems mapping row)[i]? = some it ∧
        it.value = sanitizeCellValue (getRowValue row entry.column) ∧
        it.trimmed = jsTrim it.value ∧
        it.hasValue = decide (jsTrim it.value ≠ "")) := by
  refine ⟨?_, ?_, ?_, ?_⟩
  · intro s
    constructor
    · intro hmem
      rw [sanitizeCellValue] at hmem
      simp only [String.data] at hmem
      have := List.mem_filter.mp hmem
      simp at this
    · exact List.filter_sublist _
  · intro s hs
    rw [sanitizeCellValue]
    have : s.data.filter (fun c => decide (c ≠ '\"')) = s.data :=
      List.filter_eq_self.mpr (fun a ha => by simpa using hs a ha)
    rw [this]
  · intro row c1 c2 h1 h2 hf1 hf2 heq
    rw [getRowValue, getRowValue, if_neg h1, if_neg h2, hf1, hf2]
    simp only [heq]
  · intro mapping row i entry hget
    refine ⟨mkRItem row i entry, ?_, rfl, rfl, rfl⟩
    rw [resolveItems, ← List.get?_eq_getElem?, List.get?_map, List.get?_enum,
      List.get?_eq_getElem? mapping i, hget]
    rfl

/-- Witness for C8 on a concrete row: a case-insensitive header hit and a
concrete resolved item. -/
theorem C8_lookup_sanitize_witness :
    getRowValue [("Nome", "Ana")] "noME " = getRowValue [("Nome", "Ana")] " NOME" ∧
    (∃ it, (resolveItems [⟨"k1", "col", "", ""⟩] [("col", " x ")])[0]? = some it ∧
      it.value = sanitizeCellValue (getRowValue [("col", " x ")] "col") ∧
      it.trimmed = jsTrim it.value ∧
      it.hasValue = decide (jsTrim it.value ≠ "")) := by
  constructor
  · exact C8_lookup_sanitize.2.2.1 [("Nome", "Ana")] "noME " " NOME"
      (by decide) (by decide) (by decide) (by decide) (by decide)
  · exact C8_lookup_sanitize.2.2.2 [⟨"k1", "col", "", ""⟩] [("col", " x ")] 0
      ⟨"k1", "col", "", ""⟩ (by decide)

/-! ## Conversion chain (`isPdfBuffer`, `docxBufferToPdf`) -/

/-- A binary buffer, as a list of byte values. -/
abbrev Buf := List Nat

/-- Model of `isPdfBuffer`: a buffer of at least four bytes whose first four
bytes spell the PDF magic signature (the byte values of the four signature
characters). -/
def isPdfBuffer (buf : Buf) : Bool :=
  if buf.length < 4 then false else decide (buf.take 4 = [37, 80, 68, 70])

/-- Model of `convertWithMsOffice`'s result handling.  `raw` is the outcome
of the external Word automation run (`none`: non-Windows platform, a thrown
error, or a missing output file).  A produced file is returned only when
non-empty (`pdf.length ? pdf : null`); errors are swallowed into `null`. -/
def convertWithMsOffice (raw : Option Buf) : Option Buf :=
  match raw with
  | none => none
  | some pdf => if pdf.length = 0 then none else some pdf

/-- Model of `convertWithLibreOffice`: the external conversion outcome with
empty results and thrown errors both mapped to `null`. -/
def convertWithLibreOffice (raw : Option Buf) : Option Buf :=
  match raw with
  | none => none
  | some pdf => if pdf.length = 0 then none else some pdf

/-- Model of `convertWithPuppeteer`: the external render outcome is
returned as-is (a thrown error yields `null`; no emptiness check). -/
def convertWithPuppeteer (raw : Option Buf) : Option Buf := raw

/-- Model of `docxBufferToPdf`: try MS Office, then LibreOffice, then
Puppeteer, advancing only on a falsy (null) result.  The second component
records whether the fallback warning (layout may diverge, emitted just
before the Puppeteer attempt) was printed. -/
def docxBufferToPdf (ms lo pp : Option Buf) : Option Buf × Bool :=
  match convertWithMsOffice ms with
  | some b => (some b, false)
  | none =>
    match convertWithLibreOffice lo with
    | some b => (some b, false)
    | none => (convertWithPuppeteer pp, true)

/-- Modelled from the spec's words for C1: a chain that advances past a
backend whenever the backend failed or its result fails PDF-signature
verification, and returns the first verified result. -/
def verifiedChainSpec : List (Option Buf) → Option Buf
  | [] => none
  | none :: rest => verifiedChainSpec rest
  | some b :: rest => if isPdfBuffer b then some b else verifiedChainSpec rest

/-- Modelled from the amended claim: the chain returns the first non-null
backend result, with no signature verification inside the chain. -/
def firstTruthyChain : List (Option Buf) → Option Buf
  | [] => none
  | some b :: _ => some b
  | none :: rest => firstTruthyChain rest

/-- C1 counterexample: when MS Office produces a non-empty buffer that is
not a PDF while LibreOffice produces a verified PDF, the code chain returns
the unverified MS Office buffer and never advances — it does not return the
first verified result. -/
theorem C1_counterexample :
    (docxBufferToPdf (some [0, 1, 2, 3, 4]) (some [37, 80, 68, 70, 0]) none).1 =
      some [0, 1, 2, 3, 4] ∧
    isPdfBuffer [0, 1, 2, 3, 4] = false ∧
    isPdfBuffer [37, 80, 68, 70, 0] = true ∧
    (docxBufferToPdf (some [0, 1, 2, 3, 4]) (some [37, 80, 68, 70, 0]) none).1 ≠
      verifiedChainSpec
        [convertWithMsOffice (some [0, 1, 2, 3, 4]),
         convertWithLibreOffice (some [37, 80, 68, 70, 0]),
         convertWithPuppeteer none] := by
  decide

/-- C1 as amended: the chain tries MS Office, LibreOffice and Puppeteer in
that order, advances to the next backend only when the previous one failed
or returned an empty buffer (a null result), returns the first non-null
result without verifying the PDF magic signature inside the chain (the
caller verifies afterwards), and warns about the Puppeteer fallback exactly
when both earlier backends failed. -/
theorem C1_chain_first_truthy (ms lo pp : Option Buf) :
    (docxBufferToPdf ms lo pp).1 =
      firstTruthyChain
        [convertWithMsOffice ms, convertWithLibreOffice lo, convertWithPuppeteer pp] ∧
    ((docxBufferToPdf ms lo pp).2 = true ↔
      convertWithMsOffice ms = none ∧ convertWithLibreOffice lo = none) := by
  cases hms : convertWithMsOffice ms <;> cases hlo : convertWithLibreOffice lo <;>
    cases pp <;> simp [docxBufferToPdf, firstTruthyChain, convertWithPuppeteer, hms, hlo]

/-! ## Job state machine: pause and resume -/

/-- The mutable job fields the pause/resume handlers touch. -/
structure Job where
  status : String
  paused : Bool
  pausePromiseArmed : Bool
  updatedAt : Nat
  deriving Repr, DecidableEq

/-- Model of `pauseJob`: only a running job is paused; the suspension
signal is armed and `touchJob` refreshes `updatedAt`. -/
def pauseJob (j : Job) (now : Nat) : Job :=
  if j.status ≠ "running" then j
  else { j with paused := true, status := "paused", pausePromiseArmed := true, updatedAt := now }

/-- Model of `resumeJob`: only a paused job is resumed; the armed signal is
released and cleared and `touchJob` refreshes `updatedAt`. -/
def resumeJob (j : Job) (now : Nat) : Job :=
  if j.paused = false then j
  else { j with paused := false, status := "running", pausePromiseArmed := false, updatedAt := now }

/-- Model of the pause route handler: a terminal (`done`/`error`) job is
returned untouched with its current status; otherwise `pauseJob` runs and
the new status is reported. -/
def handlePause (j : Job) (now : Nat) : Job × String :=
  if j.status = "done" ∨ j.status = "error" then (j, j.status)
  else
    let j' := pauseJob j now
    (j', j'.status)

/-- Model of the resume route handler, symmetric to `handlePause`. -/
def handleResume (j : Job) (now : Nat) : Job × String :=
  if j.status = "done" ∨ j.status = "error" then (j, j.status)
  else
    let j' := resumeJob j now
    (j', j'.status)

/-- A pause or resume request, with the time it arrives. -/
inductive PRReq
  | pauseReq (now : Nat)
  | resumeReq (now : Nat)
  deriving Repr, DecidableEq

/-- Application of a sequence of pause/resume requests to a job. -/
def applyReqs (j : Job) : List PRReq → Job
  | [] => j
  | PRReq.pauseReq now :: rest => applyReqs (handlePause j now).1 rest
  | PRReq.resumeReq now :: rest => applyReqs (handleResume j now).1 rest

/-- C5: on a job whose status is done or error, a pause or a resume request
is a no-op that leaves the whole job state unchanged (including
`updatedAt`) and returns the current status; hence the job state — in
particular its status — never changes under any subsequent sequence of
pause and resume requests. -/
theorem C5_terminal_requests_noop (j : Job) (now : Nat)
    (h : j.status = "done" ∨ j.status = "error") :
    handlePause j now = (j, j.status) ∧
    handleResume j now = (j, j.status) ∧
    ∀ reqs : List PRReq, applyReqs j reqs = j := by
  refine ⟨by rw [handlePause, if_pos h], by rw [handleResume, if_pos h], ?_⟩
  intro reqs
  induction reqs with
  | nil => rfl
  | cons req rest ih =>
    cases req with
    | pauseReq now' =>
      rw [applyReqs, handlePause, if_pos h]
      exact ih
    | resumeReq now' =>
      rw [applyReqs, handleResume, if_pos h]
      exact ih

/-- Witness for C5 on a concrete finished job and request sequence. -/
theorem C5_terminal_requests_noop_witness :
    handlePause ⟨"done", false, false, 7⟩ 99 = (⟨"done", false, false, 7⟩, "done") ∧
    applyReqs ⟨"done", false, false, 7⟩
      [PRReq.pauseReq 10, PRReq.resumeReq 11, PRReq.pauseReq 12] =
      ⟨"done", false, false, 7⟩ := by
  have h := C5_terminal_requests_noop ⟨"done", false, false, 7⟩ 99 (Or.inl rfl)
  exact ⟨h.1, h.2.2 [PRReq.pauseReq 10, PRReq.resumeReq 11, PRReq.pauseReq 12]⟩

/-! ## Email dispatch (`sendEmailsSmtp`, `sendEmailsOutlook`) -/

/-- One mail attachment. -/
structure Attachment where
  filename : String
  buffer : Buf
  deriving Repr, DecidableEq

/-- One entry of the by-recipient email queue.  `single` models the legacy
`{filename, buffer}` item shape also accepted by
`normalizeEmailAttachments` (`none` when those fields are absent). -/
structure EmailQueueItem where
  toAddr : String
  attachments : List Attachment
  single : Option Attachment
  deriving Repr, DecidableEq

/-- Model of `normalizeEmailAttachments`: a non-empty attachments array
wins; otherwise a present legacy pair with a truthy (non-empty) filename is
wrapped in a list; otherwise no attachments. -/
def normalizeEmailAttachments (item : EmailQueueItem) : List Attachment :=
  if item.attachments.length ≠ 0 then item.attachments
  else
    match item.single with
    | some att => if att.filename ≠ "" then [att] else []
    | none => []

/-- Model of `formatAttachmentNames`: the non-empty filenames joined with a
comma separator. -/
def formatAttachmentNames (atts : List Attachment) : String :=
  String.intercalate ", " ((atts.map (fun a => a.filename)).filter (fun n => n ≠ ""))

/-- One row of the per-recipient result list both transports produce. -/
structure SendResultRow where
  toAddr : String
  filename : String
  status : String
  error : String
  deriving Repr, DecidableEq

/-- SMTP settings coming from the request body (`normalizeSmtpConfig`
output; empty strings for absent fields, `none` for a non-boolean
`secure`). -/
structure SmtpConfig where
  host : String
  port : String
  user : String
  pass : String
  fromAddr : String
  secure : Option Bool
  deriving Repr, DecidableEq

/-- The SMTP-related environment variables (empty string meaning unset). -/
structure SmtpEnv where
  host : String
  port : String
  user : String
  pass : String
  fromAddr : String
  deriving Repr, DecidableEq

/-- Transport options produced by `buildSmtpOptions`. -/
structure SmtpOptions where
  host : String
  port : String
  user : String
  pass : String
  secure : Bool
  fromAddr : String
  deriving Repr, DecidableEq

/-- Model of `buildSmtpOptions`: merge the request config over the
environment; fail (null) when host, user or pass is missing after the
merge.  The `secure` default compares the merged port with 465 (the JS
numeric comparison, modelled on the canonical decimal strings the clients
send); the sender address falls back to the environment and then to the
user. -/
def buildSmtpOptions (config : SmtpConfig) (env : SmtpEnv) : Option SmtpOptions :=
  let host := if config.host ≠ "" then config.host else env.host
  let port := if config.port ≠ "" then config.port
    else if env.port ≠ "" then env.port else "587"
  let user := if config.user ≠ "" then config.user else env.user
  let pass := if config.pass ≠ "" then config.pass else env.pass
  if host = "" ∨ user = "" ∨ pass = "" then none
  else
    let secure := match config.secure with
      | some b => b
      | none => decide (port = "465")
    let fromAddr := if config.fromAddr ≠ "" then config.fromAddr
      else if env.fromAddr ≠ "" then env.fromAddr else user
    some { host := host, port := port, user := user, pass := pass,
           secure := secure, fromAddr := fromAddr }

/-- Aggregate report of one dispatch run.  `attempts` is the ghost list of
recipients for which an actual transport send was attempted (the
`transporter.sendMail` calls), in order. -/
structure SmtpSendReport where
  sent : Nat
  failed : Nat
  errors : List String
  results : List SendResultRow
  attempts : List String
  deriving Repr, DecidableEq

/-- The per-recipient loop of `sendEmailsSmtp`.  `oracle` gives the outcome
of the transport send for the item at each queue position (`none` =
delivered, `some msg` = the thrown error's message).  An item without
attachments is failed without attempting a send. -/
def sendEmailsSmtpGo (oracle : Nat → Option String) :
    List EmailQueueItem → Nat → SmtpSendReport
  | [], _ => { sent := 0, failed := 0, errors := [], results := [], attempts := [] }
  | item :: rest, idx =>
    let atts := normalizeEmailAttachments item
    let filenameList := formatAttachmentNames atts
    if atts.length = 0 then
      let r := sendEmailsSmtpGo oracle rest (idx + 1)
      { sent := r.sent, failed := r.failed + 1,
        errors := ("Erro para " ++ item.toAddr ++ ": Sem anexos para enviar") :: r.errors,
        results := { toAddr := item.toAddr, filename := filenameList, status := "failed",
                     error := "Sem anexos para enviar" } :: r.results,
        attempts := r.attempts }
    else
      match oracle idx with
      | none =>
        let r := sendEmailsSmtpGo oracle rest (idx + 1)
        { sent := r.sent + 1, failed := r.failed, errors := r.errors,
          results := { toAddr := item.toAddr, filename := filenameList, status := "sent",
                       error := "" } :: r.results,
          attempts := item.toAddr :: r.attempts }
      | some msg =>
        let r := sendEmailsSmtpGo oracle rest (idx + 1)
        { sent := r.sent, failed := r.failed + 1,
          errors := ("Erro para " ++ item.toAddr ++ ": " ++ msg) :: r.errors,
          results := { toAddr := item.toAddr, filename := filenameList, status := "failed",
                       error := msg } :: r.results,
          attempts := item.toAddr :: r.attempts }

/-- Model of `sendEmailsSmtp`: when the merged SMTP options are null the
whole queue is failed with a configuration error and no transport is
created; otherwise the queue is processed sequentially and the failure
count reported at the end is the queue length minus the successes. -/
def sendEmailsSmtp (config : SmtpConfig) (env : SmtpEnv)
    (queue : List EmailQueueItem) (oracle : Nat → Option String) : SmtpSendReport :=
  match buildSmtpOptions config env with
  | none =>
    { sent := 0, failed := queue.length, errors := ["SMTP nao configurado"],
      results := queue.map (fun item =>
        { toAddr := item.toAddr,
          filename := formatAttachmentNames (normalizeEmailAttachments item),
          status := "failed", error := "SMTP nao configurado" }),
      attempts := [] }
  | some _ =>
    let r := sendEmailsSmtpGo oracle queue 0
    { r with failed := queue.length - r.sent }

/-- Aggregate report of an Outlook dispatch run.  The non-Windows return
value of the code carries no `results` field (reading it yields
`undefined`, which every caller treats as an empty list), modelled as
`[]`. -/
structure OutlookSendReport where
  sent : Nat
  failed : Nat
  errors : List String
  results : List SendResultRow
  deriving Repr, DecidableEq

/-- Model of `sendEmailsOutlook`.  On a platform other than win32 the
function fails immediately for the whole queue with a capability error.
On win32 it shells out to Outlook through PowerShell; that external
interaction is the `winOutcome` parameter — either a thrown error message
or the parsed per-recipient report, which the code then aggregates
(`skipped` rows are counted into `failed`). -/
def sendEmailsOutlook (platform : String) (queue : List EmailQueueItem)
    (winOutcome : Except String (List SendResultRow)) : OutlookSendReport :=
  if platform ≠ "win32" then
    { sent := 0, failed := queue.length,
      errors := ["Outlook disponivel apenas no Windows."], results := [] }
  else
    match winOutcome with
    | Except.error msg =>
      { sent := 0, failed := queue.length, errors := [msg],
        results := queue.map (fun item =>
          { toAddr := item.toAddr,
            filename := formatAttachmentNames (normalizeEmailAttachments item),
            status := "failed", error := msg }) }
    | Except.ok report =>
      { sent := (report.filter (fun r => r.status = "sent")).length,
        failed := (report.filter (fun r => r.status = "failed")).length +
          (report.filter (fun r => r.status = "skipped")).length,
        errors := (report.filter (fun r => r.error ≠ "")).map
          (fun r => r.toAddr ++ ": " ++ r.error),
        results := report }

/-- C9: on a platform other than win32, the Outlook transport fails
immediately for every queued recipient — zero sent, every queue entry
counted as failed — and reports an explicit capability error naming the
missing platform capability instead of silently doing nothing. -/
theorem C9_outlook_non_windows (platform : String) (queue : List EmailQueueItem)
    (winOutcome : Except String (List SendResultRow))
    (hplat : platform ≠ "win32") (hne : queue ≠ []) :
    (sendEmailsOutlook platform queue winOutcome).sent = 0 ∧
    (sendEmailsOutlook platform queue winOutcome).failed = queue.length ∧
    0 < queue.length ∧
    (sendEmailsOutlook platform queue winOutcome).errors =
      ["Outlook disponivel apenas no Windows."] := by
  simp only [sendEmailsOutlook, if_pos hplat]
  exact ⟨trivial, trivial, List.length_pos.mpr hne, trivial⟩

/-- Witness for C9 on a concrete queue and platform. -/
theorem C9_outlook_non_windows_witness :
    (sendEmailsOutlook "linux" [⟨"a@b.co", [⟨"doc.pdf", [37, 80, 68, 70]⟩], none⟩]
      (Except.error "unused")).sent = 0 ∧
    (sendEmailsOutlook "linux" [⟨"a@b.co", [⟨"doc.pdf", [37, 80, 68, 70]⟩], none⟩]
      (Except.error "unused")).failed = 1 ∧
    (sendEmailsOutlook "linux" [⟨"a@b.co", [⟨"doc.pdf", [37, 80, 68, 70]⟩], none⟩]
      (Except.error "unused")).errors = ["Outlook disponivel apenas no Windows."] := by
  have h := C9_outlook_non_windows "linux"
    [⟨"a@b.co", [⟨"doc.pdf", [37, 80, 68, 70]⟩], none⟩]
    (Except.error "unused") (by decide) (by decide)
  exact ⟨h.1, h.2.1, h.2.2.2⟩

theorem sendEmailsSmtpGo_spec (oracle : Nat → Option String) (queue : List EmailQueueItem) :
    ∀ idx : Nat,
    (sendEmailsSmtpGo oracle queue idx).sent ≤ queue.length ∧
    (sendEmailsSmtpGo oracle queue idx).results.length = queue.length ∧
    (sendEmailsSmtpGo oracle queue idx).results.map (fun res => res.toAddr) =
      queue.map (fun item => item.toAddr) ∧
    ∀ res ∈ (sendEmailsSmtpGo oracle queue idx).results,
      res.status = "sent" ∨ res.status = "failed" := by
  induction queue with
  | nil =>
    intro idx
    refine ⟨by simp [sendEmailsSmtpGo], by simp [sendEmailsSmtpGo],
      by simp [sendEmailsSmtpGo], ?_⟩
    intro res hres
    simp [sendEmailsSmtpGo] at hres
  | cons item rest ih =>
    intro idx
    obtain ⟨ih1, ih2, ih3, ih4⟩ := ih (idx + 1)
    rw [sendEmailsSmtpGo]
    by_cases hatts : (normalizeEmailAttachments item).length = 0
    · rw [if_pos hatts]
      refine ⟨by simpa using Nat.le_succ_of_le ih1, by simpa using ih2, ?_, ?_⟩
      · simpa using ih3
      · intro res hres
        rcases List.mem_cons.mp hres with h | h
        · subst h; exact Or.inr rfl
        · exact ih4 res h
    · rw [if_neg hatts]
      cases horacle : oracle idx with
      | none =>
        refine ⟨by simpa using Nat.succ_le_succ ih1, by simpa using ih2, ?_, ?_⟩
        · simpa using ih3
        · intro res hres
          rcases List.mem_cons.mp hres with h | h
          · subst h; exact Or.inl rfl
          · exact ih4 res h
      | some msg =>
        refine ⟨by simpa using Nat.le_succ_of_le ih1, by simpa using ih2, ?_, ?_⟩
        · simpa using ih3
        · intro res hres
          rcases List.mem_cons.mp hres with h | h
          · subst h; exact Or.inr rfl
          · exact ih4 res h

/-- C10: for any queue handed to the SMTP dispatcher, the aggregates
satisfy sent plus failed equals the queue length and the per-recipient
result list carries exactly one entry per queue entry (same recipients, in
order), each marked sent or failed; when SMTP is not configured the
dispatcher reports zero sent, the whole queue failed, one failed result per
recipient with the configuration error, and attempts no transport send at
all. -/
theorem C10_smtp_accounting (config : SmtpConfig) (env : SmtpEnv)
    (queue : List EmailQueueItem) (oracle : Nat → Option String) :
    (sendEmailsSmtp config env queue oracle).sent +
      (sendEmailsSmtp config env queue oracle).failed = queue.length ∧
    (sendEmailsSmtp config env queue oracle).results.length = queue.length ∧
    (sendEmailsSmtp config env queue oracle).results.map (fun res => res.toAddr) =
      queue.map (fun item => item.toAddr) ∧
    (∀ res ∈ (sendEmailsSmtp config env queue oracle).results,
      res.status = "sent" ∨ res.status = "failed") ∧
    (buildSmtpOptions config env = none →
      (sendEmailsSmtp config env queue oracle).sent = 0 ∧
      (sendEmailsSmtp config env queue oracle).failed = queue.length ∧
      (sendEmailsSmtp config env queue oracle).attempts = [] ∧
      ∀ res ∈ (sendEmailsSmtp config env queue oracle).results,
        res.status = "failed" ∧ res.error = "SMTP nao configurado") := by
  cases hopts : buildSmtpOptions config env with
  | none =>
    simp only [sendEmailsSmtp, hopts]
    refine ⟨by simp, by simp, by simp, ?_, ?_⟩
    · intro res hres
      obtain ⟨item, _, hmk⟩ := List.mem_map.mp hres
      rw [← hmk]
      exact Or.inr rfl
    · intro _
      refine ⟨trivial, trivial, trivial, ?_⟩
      intro res hres
      obtain ⟨item, _, hmk⟩ := List.mem_map.mp hres
      rw [← hmk]
      exact ⟨rfl, rfl⟩
  | some opts =>
    obtain ⟨h1, h2, h3, h4⟩ := sendEmailsSmtpGo_spec oracle queue 0
    simp only [sendEmailsSmtp, hopts]
    refine ⟨by omega, h2, h3, h4, ?_⟩
    intro hnone
    simp at hnone

/-- Witness for C10 on an unconfigured dispatcher with one queued
recipient. -/
theorem C10_smtp_accounting_witness :
    (sendEmailsSmtp ⟨"", "", "", "", "", none⟩ ⟨"", "", "", "", ""⟩
      [⟨"a@b.co", [⟨"doc.pdf", [37, 80, 68, 70]⟩], none⟩] (fun _ => none)).sent = 0 ∧
    (sendEmailsSmtp ⟨"", "", "", "", "", none⟩ ⟨"", "", "", "", ""⟩
      [⟨"a@b.co", [⟨"doc.pdf", [37, 80, 68, 70]⟩], none⟩] (fun _ => none)).failed = 1 ∧
    (sendEmailsSmtp ⟨"", "", "", "", "", none⟩ ⟨"", "", "", "", ""⟩
      [⟨"a@b.co", [⟨"doc.pdf", [37, 80, 68, 70]⟩], none⟩] (fun _ => none)).attempts = [] := by
  have h := C10_smtp_accounting ⟨"", "", "", "", "", none⟩ ⟨"", "", "", "", ""⟩
    [⟨"a@b.co", [⟨"doc.pdf", [37, 80, 68, 70]⟩], none⟩] (fun _ => none)
  obtain ⟨hz, hf, ha, _⟩ := h.2.2.2.2 (by decide)
  exact ⟨hz, hf, ha⟩

/-! ## Placeholder extraction (`extractPlaceholders`) -/

/-- Markup stripping (the global tag-removal replace): at an opening angle
bracket, if the first closing bracket appears after at least one
intervening character, the whole span through that closing bracket is
deleted; otherwise the bracket is kept as text.  `fuel` bounds the
recursion; one unit per consumed character suffices. -/
def stripTagsFuel : Nat → List Char → List Char
  | 0, l => l
  | _ + 1, [] => []
  | fuel + 1, c :: rest =>
    if c = '<' then
      match rest.findIdx? (fun d => d = '>') with
      | some k =>
        if 1 ≤ k then stripTagsFuel fuel (rest.drop (k + 1))
        else c :: stripTagsFuel fuel rest
      | none => c :: stripTagsFuel fuel rest
    else c :: stripTagsFuel fuel rest

/-- Markup stripping at full fuel. -/
def stripTags (l : List Char) : List Char := stripTagsFuel l.length l

/-- The global token scan of `extractPlaceholders`: at a double opening
brace, the enclosed span runs to the first closing brace; the match
succeeds when that span is non-empty and a second closing brace follows,
producing the trimmed span as the captured name (the lazy capture plus the
the trim in the code collapse to trimming the span); on failure the scan
advances one character, on success it resumes after the closing pair. -/
def scanTokensFuel : Nat → List Char → List String
  | 0, _ => []
  | _ + 1, [] => []
  | fuel + 1, c :: rest =>
    if c = '{' then
      match rest with
      | [] => []
      | c2 :: rest2 =>
        if c2 = '{' then
          match rest2.findIdx? (fun d => d = '}') with
          | some k =>
            if 1 ≤ k ∧ (rest2.drop (k + 1)).head? = some '}' then
              String.mk (jsTrimChars (rest2.take k)) ::
                scanTokensFuel fuel (rest2.drop (k + 2))
            else scanTokensFuel fuel rest
          | none => scanTokensFuel fuel rest
        else scanTokensFuel fuel rest
    else scanTokensFuel fuel rest

/-- The token scan at full fuel. -/
def scanTokens (l : List Char) : List String := scanTokensFuel l.length l

/-- Model of adding one name to the JS `Set` (insertion-ordered, ignoring
repeats). -/
def addUnique (acc : List String) (s : String) : List String :=
  if s ∈ acc then acc else acc ++ [s]

/-- Model of `extractPlaceholders` downstream of the opaque zip packaging:
the input is the sanitized document XML produced by
`sanitizeTemplateBuffer`; its markup is stripped, the token pattern is
scanned over the result left to right, and the trimmed names are collected
into an insertion-ordered set, returned as an array. -/
def extractPlaceholders (xml : List Char) : List String :=
  (scanTokens (stripTags xml)).foldl addUnique []

/-- Modelled from the spec's words for C6: the set of distinct names in
first-seen order — keep each name's first occurrence, drop later
repetitions. -/
def firstSeenSpec : List String → List String
  | [] => []
  | s :: rest => s :: (firstSeenSpec rest).filter (fun t => t ≠ s)

theorem foldl_addUnique_eq (l : List String) : ∀ acc : List String,
    l.foldl addUnique acc = acc ++ (firstSeenSpec l).filter (fun s => s ∉ acc) := by
  induction l with
  | nil => intro acc; simp [firstSeenSpec]
  | cons s rest ih =>
    intro acc
    rw [List.foldl_cons, ih (addUnique acc s), firstSeenSpec]
    by_cases hmem : s ∈ acc
    · rw [addUnique, if_pos hmem]
      have hdrop : List.filter (fun t => decide (t ∉ acc))
          (s :: (firstSeenSpec rest).filter (fun t => decide (t ≠ s))) =
          List.filter (fun t => decide (t ∉ acc))
            ((firstSeenSpec rest).filter (fun t => decide (t ≠ s))) := by
        rw [List.filter_cons]
        simp [hmem]
      rw [hdrop, List.filter_filter]
      congr 1
      apply List.filter_congr
      intro t _
      by_cases hts : t = s
      · subst hts; simp [hmem]
      · simp [hts]
    · rw [addUnique, if_neg hmem]
      have hkeep : List.filter (fun t => decide (t ∉ acc))
          (s :: (firstSeenSpec rest).filter (fun t => decide (t ≠ s))) =
          s :: List.filter (fun t => decide (t ∉ acc))
            ((firstSeenSpec rest).filter (fun t => decide (t ≠ s))) := by
        rw [List.filter_cons]
        simp [hmem]
      rw [hkeep, List.filter_filter, List.append_assoc]
      congr 1
      rw [List.singleton_append]
      congr 1
      apply List.filter_congr
      intro t _
      by_cases hts : t = s
      · subst hts; simp
      · simp [hts, hmem]

theorem firstSeenSpec_nodup (l : List String) : (firstSeenSpec l).Nodup := by
  induction l with
  | nil => simp [firstSeenSpec]
  | cons s rest ih =>
    rw [firstSeenSpec]
    refine List.Nodup.cons ?_ (List.Nodup.filter _ ih)
    intro hmem
    have := List.of_mem_filter hmem
    simp at this

theorem mem_firstSeenSpec (l : List String) (t : String) :
    t ∈ firstSeenSpec l ↔ t ∈ l := by
  induction l with
  | nil => simp [firstSeenSpec]
  | cons s rest ih =>
    rw [firstSeenSpec]
    by_cases hts : t = s
    · subst hts; simp
    · simp only [List.mem_cons, List.mem_filter, ih, hts, decide_eq_true_eq,
        false_or, ne_eq, not_false_iff, and_true]

/-- C6: `extractPlaceholders` returns each distinct trimmed placeholder
name of the sanitized, markup-stripped XML exactly once, in order of first
occurrence, regardless of how many times a name repeats in the scanned
text; concretely, a template repeating one name yields that name once. -/
theorem C6_extract_first_seen (xml : List Char) :
    extractPlaceholders xml = firstSeenSpec (scanTokens (stripTags xml)) ∧
    (extractPlaceholders xml).Nodup ∧
    (∀ s, s ∈ extractPlaceholders xml ↔ s ∈ scanTokens (stripTags xml)) ∧
    extractPlaceholders
      "\x7b\x7bnome\x7d\x7d<w:t> \x7b\x7b nome \x7d\x7d</w:t>\x7b\x7bcid\x7d\x7d".data =
      ["nome", "cid"] := by
  have heq : extractPlaceholders xml = firstSeenSpec (scanTokens (stripTags xml)) := by
    rw [extractPlaceholders, foldl_addUnique_eq, List.nil_append]
    apply List.filter_eq_self.mpr
    intro a _
    simp
  refine ⟨heq, ?_, ?_, by decide⟩
  · rw [heq]; exact firstSeenSpec_nodup _
  · intro s; rw [heq]; exact mem_firstSeenSpec _ s

/-! ## Filenames and decimal counters -/

/-- Decimal digit character (codepoint 48 + digit). -/
def decDigitChar (d : Nat) : Char := Char.ofNat (48 + d)

/-- Model of the JS decimal rendering of a non-negative integer (template
interpolation / `String(n)`). -/
def decChars (n : Nat) : List Char :=
  if n = 0 then ['0'] else ((Nat.digits 10 n).map decDigitChar).reverse

/-- Case-insensitive suffix test: `name.toLowerCase().endsWith(sfx)` for a
lower-case `sfx`. -/
def endsWithCI (sfx name : List Char) : Bool :=
  decide (sfx.length ≤ name.length) &&
    decide ((name.drop (name.length - sfx.length)).map Char.toLower = sfx)

/-- Replacement of a case-insensitive suffix (`name.replace(/sfx$/i, repl)`
for a literal suffix pattern): when the suffix matches it is replaced,
otherwise the name is unchanged. -/
def replaceSuffixCI (sfx repl name : List Char) : List Char :=
  if endsWithCI sfx name then name.take (name.length - sfx.length) ++ repl else name

/-- The candidate name for one collision counter value:
`filename.replace(/\.docx$/i, "_<counter>.docx")`. -/
def suffixedName (filename : List Char) (counter : Nat) : List Char :=
  replaceSuffixCI ".docx".data ('_' :: decChars counter ++ ".docx".data) filename

/-- The collision loop of the generate runner (`while usedNames.has(...)`):
try the expanded filename, then the `_2`, `_3`, ... suffixed variants, all
derived from the original filename, until one is unused.  `fuel` bounds the
loop; one more unit than the number of used names suffices. -/
def uniqueNameLoop (used : List (List Char)) (filename : List Char) :
    Nat → Nat → List Char → List Char
  | 0, _, current => current
  | fuel + 1, counter, current =>
    if current ∈ used then
      uniqueNameLoop used filename fuel (counter + 1) (suffixedName filename counter)
    else current

/-- The collision-resolved name for one row. -/
def uniqueName (used : List (List Char)) (filename : List Char) : List Char :=
  uniqueNameLoop used filename (used.length + 1) 2 filename

/-- The sequence of candidates the collision loop walks. -/
def candidateAt (filename : List Char) : Nat → List Char
  | 0 => filename
  | i + 1 => suffixedName filename (i + 2)

theorem decDigitChar_inj_lt : ∀ a < 10, ∀ b < 10, decDigitChar a = decDigitChar b → a = b := by
  decide

theorem map_decDigitChar_inj : ∀ (l1 l2 : List Nat), (∀ d ∈ l1, d < 10) → (∀ d ∈ l2, d < 10) →
    l1.map decDigitChar = l2.map decDigitChar → l1 = l2 := by
  intro l1
  induction l1 with
  | nil => intro l2 _ _ h; cases l2 <;> simp_all
  | cons a rest ih =>
    intro l2 h1 h2 h
    cases l2 with
    | nil => simp_all
    | cons b rest2 =>
      simp only [List.map_cons, List.cons.injEq] at h
      have ha : a = b := decDigitChar_inj_lt a (h1 a (by simp)) b (h2 b (by simp)) h.1
      have hr : rest = rest2 := ih rest2 (fun d hd => h1 d (by simp [hd]))
        (fun d hd => h2 d (by simp [hd])) h.2
      rw [ha, hr]

theorem decChars_inj (m n : Nat) (h : decChars m = decChars n) : m = n := by
  by_cases hm : m = 0 <;> by_cases hn : n = 0
  · rw [hm, hn]
  · exfalso
    rw [decChars, if_pos hm, decChars, if_neg hn] at h
    have hmap : (Nat.digits 10 n).map decDigitChar = ['0'] := by
      have := congrArg List.reverse h
      simpa using this.symm
    have hdig : Nat.digits 10 n = [0] := by
      apply map_decDigitChar_inj (Nat.digits 10 n) [0]
      · intro d hd; exact Nat.digits_lt_base (by norm_num) hd
      · intro d hd; simp at hd; omega
      · simpa using hmap
    have := Nat.ofDigits_digits 10 n
    rw [hdig] at this
    simp [Nat.ofDigits] at this
    exact hn this.symm
  · exfalso
    rw [decChars, if_neg hm, decChars, if_pos hn] at h
    have hmap : (Nat.digits 10 m).map decDigitChar = ['0'] := by
      have := congrArg List.reverse h
      simpa using this
    have hdig : Nat.digits 10 m = [0] := by
      apply map_decDigitChar_inj (Nat.digits 10 m) [0]
      · intro d hd; exact Nat.digits_lt_base (by norm_num) hd
      · intro d hd; simp at hd; omega
      · simpa using hmap
    have := Nat.ofDigits_digits 10 m
    rw [hdig] at this
    simp [Nat.ofDigits] at this
    exact hm this.symm
  · rw [decChars, if_neg hm, decChars, if_neg hn] at h
    have hmap : (Nat.digits 10 m).map decDigitChar = (Nat.digits 10 n).map decDigitChar := by
      have := congrArg List.reverse h
      simpa using this
    have hdig : Nat.digits 10 m = Nat.digits 10 n :=
      map_decDigitChar_inj _ _ (fun d hd => Nat.digits_lt_base (by norm_num) hd)
        (fun d hd => Nat.digits_lt_base (by norm_num) hd) hmap
    have h1 := Nat.ofDigits_digits 10 m
    have h2 := Nat.ofDigits_digits 10 n
    rw [hdig] at h1
    rw [h2] at h1
    exact h1.symm

theorem decChars_ne_nil (n : Nat) : decChars n ≠ [] := by
  rw [decChars]
  by_cases hn : n = 0
  · simp [hn]
  · rw [if_neg hn]
    intro h
    have hnil : Nat.digits 10 n = [] := by
      have hh := congrArg List.length h
      simp at hh
      exact hh
    rw [Nat.digits_eq_nil_iff_eq_zero] at hnil
    exact hn hnil

theorem suffixedName_eq (filename : List Char) (k : Nat)
    (hdocx : endsWithCI ".docx".data filename = true) :
    suffixedName filename k =
      filename.take (filename.length - 5) ++ '_' :: decChars k ++ ".docx".data := by
  rw [suffixedName, replaceSuffixCI, if_pos hdocx]
  have h5 : (".docx".data).length = 5 := by decide
  rw [h5, List.append_assoc, List.cons_append]

theorem endsWithCI_docx_length (filename : List Char)
    (hdocx : endsWithCI ".docx".data filename = true) : 5 ≤ filename.length := by
  rw [endsWithCI, Bool.and_eq_true, decide_eq_true_eq, decide_eq_true_eq] at hdocx
  exact hdocx.1

theorem candidateAt_inj (filename : List Char)
    (hdocx : endsWithCI ".docx".data filename = true) :
    ∀ i j, candidateAt filename i = candidateAt filename j → i = j := by
  have hlen := endsWithCI_docx_length filename hdocx
  have hstem : (filename.take (filename.length - 5)).length = filename.length - 5 := by
    rw [List.length_take]
    omega
  have hcand : ∀ i, candidateAt filename (i + 1) =
      filename.take (filename.length - 5) ++ '_' :: decChars (i + 2) ++ ".docx".data :=
    fun i => suffixedName_eq filename (i + 2) hdocx
  have hlensucc : ∀ i, (candidateAt filename (i + 1)).length =
      filename.length + 1 + (decChars (i + 2)).length := by
    intro i
    rw [hcand i]
    have h5 : (".docx".data).length = 5 := by decide
    simp only [List.length_append, List.length_cons, hstem, h5]
    omega
  intro i j h
  cases i with
  | zero =>
    cases j with
    | zero => rfl
    | succ j =>
      exfalso
      have h0 : (candidateAt filename 0).length = filename.length := rfl
      have h1 := hlensucc j
      rw [h] at h0
      rw [h0] at h1
      have := decChars_ne_nil (j + 2)
      have hpos : 0 < (decChars (j + 2)).length := List.length_pos.mpr this
      omega
  | succ i =>
    cases j with
    | zero =>
      exfalso
      have h0 : (candidateAt filename 0).length = filename.length := rfl
      have h1 := hlensucc i
      rw [← h] at h0
      rw [h0] at h1
      have := decChars_ne_nil (i + 2)
      have hpos : 0 < (decChars (i + 2)).length := List.length_pos.mpr this
      omega
    | succ j =>
      rw [hcand i, hcand j] at h
      rw [List.append_assoc, List.append_assoc] at h
      have h2 := List.append_cancel_left h
      have hlq : ('_' :: decChars (i + 2)).length = ('_' :: decChars (j + 2)).length := by
        have hh := congrArg List.length h2
        simp only [List.length_append, List.length_cons] at hh
        simp only [List.length_cons]
        omega
      obtain ⟨hcons, _⟩ := List.append_inj h2 hlq
      simp only [List.cons.injEq, true_and] at hcons
      have := decChars_inj (i + 2) (j + 2) hcons
      omega

theorem uniqueNameLoop_char (used : List (List Char)) (filename : List Char) :
    ∀ (fuel t : Nat),
    (∃ i, i < fuel ∧ candidateAt filename (t + i) ∉ used) →
    ∃ i, i < fuel ∧
      uniqueNameLoop used filename fuel (t + 2) (candidateAt filename t) =
        candidateAt filename (t + i) ∧
      candidateAt filename (t + i) ∉ used ∧
      ∀ i', i' < i → candidateAt filename (t + i') ∈ used := by
  intro fuel
  induction fuel with
  | zero =>
    intro t h
    obtain ⟨i, hi, _⟩ := h
    omega
  | succ fuel ih =>
    intro t h
    rw [uniqueNameLoop]
    by_cases hmem : candidateAt filename t ∈ used
    · rw [if_pos hmem]
      have hnext : suffixedName filename (t + 2) = candidateAt filename (t + 1) := rfl
      obtain ⟨i, hi, hfree⟩ := h
      have hi0 : i ≠ 0 := by
        intro h0
        rw [h0] at hfree
        exact hfree hmem
      obtain ⟨i', rfl⟩ : ∃ i', i = i' + 1 := ⟨i - 1, by omega⟩
      have hex : ∃ i0, i0 < fuel ∧ candidateAt filename ((t + 1) + i0) ∉ used := by
        refine ⟨i', by omega, ?_⟩
        have : (t + 1) + i' = t + (i' + 1) := by omega
        rw [this]
        exact hfree
      obtain ⟨i0, hlt0, heq0, hfree0, hmin0⟩ := ih (t + 1) hex
      refine ⟨i0 + 1, by omega, ?_, ?_, ?_⟩
      · rw [hnext]
        have harg : t + 1 + 2 = t + 3 := by omega
        rw [← harg]
        rw [heq0]
        congr 1
        omega
      · have : t + (i0 + 1) = (t + 1) + i0 := by omega
        rw [this]
        exact hfree0
      · intro i' hi'
        cases i' with
        | zero => simpa using hmem
        | succ i'' =>
          have : t + (i'' + 1) = (t + 1) + i'' := by omega
          rw [this]
          exact hmin0 i'' (by omega)
    · rw [if_neg hmem]
      exact ⟨0, by omega, by rw [Nat.add_zero], by simpa using hmem, by omega⟩

theorem uniqueName_spec (used : List (List Char)) (filename : List Char)
    (hdocx : endsWithCI ".docx".data filename = true) :
    uniqueName used filename ∉ used ∧
    (filename ∉ used → uniqueName used filename = filename) ∧
    (filename ∈ used → ∃ k, 2 ≤ k ∧ uniqueName used filename = suffixedName filename k ∧
      ∀ j, 2 ≤ j → j < k → suffixedName filename j ∈ used) := by
  have hex : ∃ i, i < used.length + 1 ∧ candidateAt filename i ∉ used := by
    by_contra hall
    push_neg at hall
    have hsub : ((List.range (used.length + 1)).map (candidateAt filename)) ⊆ used := by
      intro x hx
      obtain ⟨i, hi, hmk⟩ := List.mem_map.mp hx
      rw [List.mem_range] at hi
      rw [← hmk]
      exact hall i hi
    have hnodup : ((List.range (used.length + 1)).map (candidateAt filename)).Nodup := by
      refine List.Nodup.map_on ?_ (List.nodup_range _)
      intro i _ j _ h
      exact candidateAt_inj filename hdocx i j h
    have := (List.subperm_of_subset hnodup hsub).length_le
    simp at this
  have hchar := uniqueNameLoop_char used filename (used.length + 1) 0
    (by simpa using hex)
  obtain ⟨i, hi, heq, hfree, hmin⟩ := hchar
  simp only [Nat.zero_add] at heq hfree hmin
  have huq : uniqueName used filename = candidateAt filename i := by
    rw [uniqueName]
    have h0 : candidateAt filename 0 = filename := rfl
    rw [← h0]
    have h2 : (0 : Nat) + 2 = 2 := rfl
    rw [← h2]
    exact heq
  refine ⟨by rw [huq]; exact hfree, ?_, ?_⟩
  · intro hnot
    rw [huq]
    cases i with
    | zero => rfl
    | succ i' =>
      exfalso
      exact hnot (by simpa using hmin 0 (by omega))
  · intro hmem
    have hi0 : i ≠ 0 := by
      intro h0
      rw [h0] at hfree
      exact hfree hmem
    obtain ⟨i', rfl⟩ : ∃ i', i = i' + 1 := ⟨i - 1, by omega⟩
    refine ⟨i' + 2, by omega, by rw [huq]; rfl, ?_⟩
    intro j hj2 hjlt
    have := hmin (j - 1) (by omega)
    have harg : j - 1 = (j - 2) + 1 ∨ j - 1 = 0 := by omega
    rcases harg with h | h
    · rw [h] at this
      have : suffixedName filename ((j - 2) + 2) ∈ used := this
      have harg2 : (j - 2) + 2 = j := by omega
      rw [harg2] at this
      exact this
    · omega

/-! ## Name-template expansion and recipient parsing -/

/-- Lookup in the name-template context `{...row, index, primary}` with the
null-coalescing default: the two synthetic keys override row columns, other
keys read the row property (missing keys coerce to the empty string). -/
def ctxLookup (row : Row) (idxStr primStr : String) (key : String) : String :=
  if key = "index" then idxStr
  else if key = "primary" then primStr
  else rowGet row key

/-- The global single-brace substitution of the name template: at an
opening brace, a non-empty span up to the first closing brace is replaced
by the context value of the span; a brace that opens no such span is kept
as text. -/
def expandTemplateFuel (row : Row) (idxStr primStr : String) :
    Nat → List Char → List Char
  | 0, l => l
  | _ + 1, [] => []
  | fuel + 1, c :: rest =>
    if c = '{' then
      match rest.findIdx? (fun d => d = '}') with
      | some k =>
        if 1 ≤ k then
          (ctxLookup row idxStr primStr (String.mk (rest.take k))).data ++
            expandTemplateFuel row idxStr primStr fuel (rest.drop (k + 1))
        else c :: expandTemplateFuel row idxStr primStr fuel rest
      | none => c :: expandTemplateFuel row idxStr primStr fuel rest
    else c :: expandTemplateFuel row idxStr primStr fuel rest

/-- Name-template expansion at full fuel. -/
def expandTemplate (row : Row) (idxStr primStr : String) (tpl : List Char) : List Char :=
  expandTemplateFuel row idxStr primStr tpl.length tpl

/-- Characters of the address atom class of the recipient pattern (ASCII
letters and digits plus the allowed punctuation, case-insensitive). -/
def isEmailAtomChar (c : Char) : Bool :=
  c.isAlpha || c.isDigit || c = '.' || c = '_' || c = '%' || c = '+' || c = '-'

/-- Characters of the domain class of the recipient pattern. -/
def isDomainChar (c : Char) : Bool :=
  c.isAlpha || c.isDigit || c = '.' || c = '-'

/-- Attempt to end the domain at dot position `p`: the position must hold a
dot preceded by at least one domain character, and the letter run following
it must have length at least two; the run length is returned. -/
def tryDot (domain : List Char) (p : Nat) : Option Nat :=
  if domain[p]? = some '.' ∧ 1 ≤ p then
    let len := ((domain.drop (p + 1)).takeWhile (fun c => c.isAlpha)).length
    if 2 ≤ len then some len else none
  else none

/-- Backtracking search for the last usable dot of a domain run, from
position `p` downwards (the greedy domain class also eats the dot and the
final letters, so the regex engine gives them back from the right). -/
def bestDotFrom (domain : List Char) : Nat → Option (Nat × Nat)
  | 0 => none
  | p + 1 =>
    match tryDot domain (p + 1) with
    | some len => some (p + 1, len)
    | none => bestDotFrom domain p

/-- The global scan of `parseRecipients` over free text: at each position,
a maximal atom run followed by the at-sign and a domain with a usable dot
yields one address (the pattern has no whitespace, so the later trim and
emptiness filter of the code are identities); otherwise the scan advances
one character. -/
def parseRecipientsFuel : Nat → List Char → List String
  | 0, _ => []
  | _ + 1, [] => []
  | fuel + 1, text =>
    match text with
    | [] => []
    | _ :: rest =>
      let atom := text.takeWhile isEmailAtomChar
      if atom.length = 0 then parseRecipientsFuel fuel rest
      else
        match text.drop atom.length with
        | '@' :: rest2 =>
          let domain := rest2.takeWhile isDomainChar
          match bestDotFrom domain (domain.length - 1) with
          | some (p, len) =>
            String.mk (atom ++ '@' :: domain.take (p + 1 + len)) ::
              parseRecipientsFuel fuel (rest2.drop (p + 1 + len))
          | none => parseRecipientsFuel fuel rest
        | _ => parseRecipientsFuel fuel rest

/-- Model of `parseRecipients` at full fuel. -/
def parseRecipients (text : List Char) : List String :=
  parseRecipientsFuel text.length text

/-- The per-row recipient deduplication
(`new Map(recipients.map(a => [a.toLowerCase(), a])).values()`): one entry
per distinct lower-cased address, in order of first occurrence, carrying
the last spelling seen for that address. -/
def dedupRecipients (recipients : List String) : List String :=
  (firstSeenSpec (recipients.map jsLower)).map fun k =>
    ((recipients.reverse.find? (fun a => jsLower a = k)).map (fun a => a)).getD ""

/-! ## Attachment naming and queueing -/

/-- Model of `sanitizeFilename`: default empty input to a fixed name, trim,
and replace filesystem-reserved characters by underscores. -/
def sanitizeFilename (name : String) : String :=
  let base0 := if name = "" then "arquivo" else name
  let base := if jsTrim base0 = "" then "arquivo" else jsTrim base0
  String.mk (base.data.map fun c =>
    if c = '\\' ∨ c = '/' ∨ c = ':' ∨ c = '*' ∨ c = '?' ∨ c = '\"' ∨ c = '<' ∨ c = '>' ∨ c = '|'
    then '_' else c)

/-- Model of `normalizePdfFilename`: sanitize, then ensure a `.pdf`
extension (converting a `.docx` extension, appending otherwise). -/
def normalizePdfFilename (filename : String) : String :=
  let base := sanitizeFilename (if filename = "" then "documento.pdf" else filename)
  if endsWithCI ".pdf".data base.data then base
  else if endsWithCI ".docx".data base.data then
    String.mk (replaceSuffixCI ".docx".data ".pdf".data base.data)
  else base ++ ".pdf"

/-- Model of `preparePdfAttachment`: only a buffer carrying the PDF magic
signature is attached (under its normalized name); anything else is dropped
with a warning. -/
def preparePdfAttachment (filename : String) (buffer : Buf) : Option Attachment :=
  if isPdfBuffer buffer then some ⟨normalizePdfFilename filename, buffer⟩ else none

/-- State of `ensureUniqueAttachmentName`: for each lower-cased recipient,
the lower-cased attachment names already used. -/
abbrev AttachNames := List (String × List String)

/-- The collision loop of `ensureUniqueAttachmentName` (fuel-bounded like
the filename loop). -/
def attachNameLoop (taken : List String) (base : String) :
    Nat → Nat → String → String
  | 0, _, current => current
  | fuel + 1, counter, current =>
    if jsLower current ∈ taken then
      attachNameLoop taken base fuel (counter + 1)
        (base ++ "_" ++ String.mk (decChars counter) ++ ".pdf")
    else current

/-- Model of `ensureUniqueAttachmentName`: per-recipient disambiguation of
attachment filenames by a numeric suffix, tracked case-insensitively. -/
def ensureUniqueAttachmentName (used : AttachNames) (recipient filename : String) :
    String × AttachNames :=
  let key := jsLower recipient
  if key = "" then (filename, used)
  else
    let taken := ((used.find? (fun kv => kv.1 = key)).map (fun kv => kv.2)).getD []
    let base := String.mk (replaceSuffixCI ".pdf".data [] filename.data)
    let finalName := attachNameLoop taken base (taken.length + 1) 2 filename
    let used' :=
      match used.find? (fun kv => kv.1 = key) with
      | some _ => used.map fun kv =>
          if kv.1 = key then (kv.1, jsLower finalName :: kv.2) else kv
      | none => used ++ [(key, [jsLower finalName])]
    (finalName, used')

/-- Model of `queueEmailAttachment`: group attachments by lower-cased
recipient, keeping the first spelling and appending in arrival order; an
empty recipient is dropped. -/
def queueEmailAttachment (queue : List (String × EmailQueueItem)) (recipient : String)
    (att : Attachment) : List (String × EmailQueueItem) :=
  let key := jsLower recipient
  if key = "" then queue
  else
    match queue.find? (fun kv => kv.1 = key) with
    | some _ => queue.map fun kv =>
        if kv.1 = key then
          (kv.1, { kv.2 with attachments := kv.2.attachments ++ [att] })
        else kv
    | none => queue ++ [(key, { toAddr := recipient, attachments := [att], single := none })]

/-! ## The generate runner (`runGenerateJob`) -/

/-- Render data for one row: every known placeholder initialized to the
empty string, then the resolved entries written over it. -/
def buildData (placeholders : List String) (mapping : List MappingEntry) (row : Row) :
    List (String × String) :=
  let init := placeholders.foldl (fun m ph => objSet m ph "") []
  (resolveRowValues mapping row).foldl (fun m kv => objSet m kv.1 kv.2) init

/-- Static inputs of one generate job (after request validation). -/
structure GenInput where
  rows : List Row
  mapping : List MappingEntry
  placeholders : List String
  nameTemplate : List Char
  primaryPlaceholder : String
  emailColumn : String

/-- External interactions of one generate run, one outcome per row index:
the rendered binary (the docx templating library) and the raw results of
the three conversion backends. -/
structure GenOracles where
  render : Nat → List (String × String) → Buf
  ms : Nat → Option Buf
  lo : Nat → Option Buf
  pp : Nat → Option Buf

/-- Accumulated state of the row loop. -/
structure GenState where
  usedNames : List (List Char)
  docxEntries : List (List Char × Buf)
  pdfEntries : List (List Char × Buf)
  emailQueue : List (String × EmailQueueItem)
  usedAttach : AttachNames
  rowLogs : List (List String)

/-- Loop state at job start. -/
def initGenState : GenState := ⟨[], [], [], [], [], []⟩

/-- The expanded, extension-ensured filename of one row (before collision
resolution): the primary mapping entry supplies the `primary` context
value, the name template is substituted, and a missing `.docx` extension
is appended. -/
def rowBaseFilename (inp : GenInput) (idx : Nat) (row : Row) : List Char :=
  let primaryMap :=
    match inp.mapping.find? (fun m => m.placeholder = inp.primaryPlaceholder) with
    | some m => some m
    | none => inp.mapping.head?
  let primaryCol :=
    match primaryMap with
    | some m => if m.column ≠ "" then m.column else "linha"
    | none => "linha"
  let primaryValue := getRowValue row primaryCol
  let idxStr := String.mk (decChars (idx + 1))
  let primStr := if primaryValue = "" then idxStr else primaryValue
  let expanded := expandTemplate row idxStr primStr inp.nameTemplate
  if endsWithCI ".docx".data expanded then expanded else expanded ++ ".docx".data

/-- The optional-email step of one row: nothing when no email column is
configured or no recipient parses; a soft-failure warning when the row has
recipients but no verified PDF; otherwise the attachment is queued for
every recipient under a per-recipient unique name. -/
def emailUpdate (inp : GenInput) (row : Row) (pdfName : List Char)
    (chainRes : Option Buf) (pdfValid : Bool)
    (queue : List (String × EmailQueueItem)) (attach : AttachNames) :
    List (String × EmailQueueItem) × AttachNames × List String :=
  if inp.emailColumn ≠ "" then
    let recipients := parseRecipients (getRowValue row inp.emailColumn).data
    let uniq := dedupRecipients recipients
    if uniq ≠ [] then
      if pdfValid = false then
        (queue, attach,
          ["PDF nao gerado; email nao enviado para " ++ String.intercalate ", " uniq])
      else
        match chainRes with
        | some b =>
          match preparePdfAttachment (String.mk pdfName) b with
          | some att =>
            let folded := uniq.foldl (fun acc r =>
              let named := ensureUniqueAttachmentName acc.2 r att.filename
              (queueEmailAttachment acc.1 r ⟨named.1, att.buffer⟩, named.2))
              (queue, attach)
            (folded.1, folded.2, [])
          | none => (queue, attach, [])
        | none => (queue, attach, [])
    else (queue, attach, [])
  else (queue, attach, [])

/-- One iteration of the generate row loop: resolve the row, render it,
pick a collision-free archive name, attempt conversion, verify the result,
keep archives and logs, and queue outbound email attachments.  The
filesystem copy of each PDF is an unobserved side effect and the loop is
modelled on its non-throwing path (a throwing row turns the whole job to
`error` in the code and is outside these claims). -/
def processGenRow (inp : GenInput) (orc : GenOracles) (idx : Nat) (row : Row)
    (st : GenState) : GenState :=
  let data := buildData inp.placeholders inp.mapping row
  let filename := rowBaseFilename inp idx row
  let finalName := uniqueName st.usedNames filename
  let docBuffer := orc.render idx data
  let pdfName := replaceSuffixCI ".docx".data ".pdf".data finalName
  let chain := docxBufferToPdf (orc.ms idx) (orc.lo idx) (orc.pp idx)
  let pdfValid := match chain.1 with
    | some b => isPdfBuffer b
    | none => false
  let chainLog :=
    if chain.2 then ["Gerando PDF via Puppeteer; o layout pode divergir do DOCX."] else []
  let invalidLog :=
    if pdfValid = false ∧ chain.1 ≠ none then
      ["PDF invalido gerado na linha " ++ String.mk (decChars (idx + 1)) ++ "."]
    else []
  let emailStep := emailUpdate inp row pdfName chain.1 pdfValid st.emailQueue st.usedAttach
  { usedNames := finalName :: st.usedNames
    docxEntries := st.docxEntries ++ [(finalName, docBuffer)]
    pdfEntries :=
      match chain.1 with
      | some b => if isPdfBuffer b then st.pdfEntries ++ [(pdfName, b)] else st.pdfEntries
      | none => st.pdfEntries
    emailQueue := emailStep.1
    usedAttach := emailStep.2.1
    rowLogs := st.rowLogs ++ [chainLog ++ invalidLog ++ emailStep.2.2] }

/-- The row loop. -/
def runRows (inp : GenInput) (orc : GenOracles) : List Row → Nat → GenState → GenState
  | [], _, st => st
  | row :: rest, idx, st => runRows inp orc rest (idx + 1) (processGenRow inp orc idx row st)

/-- Observable outcome of one generate job. -/
structure GenOutcome where
  status : String
  docxEntries : List (List Char × Buf)
  pdfEntries : List (List Char × Buf)
  emailQueue : List (String × EmailQueueItem)
  rowLogs : List (List String)
  current : Nat
  total : Nat
  dispatchTriggered : Bool

/-- Model of `runGenerateJob` on its non-throwing path: run the row loop,
assemble the archives, mark the job done, and trigger the background email
dispatch only when something was queued. -/
def runGenerateJob (inp : GenInput) (orc : GenOracles) : GenOutcome :=
  let final := runRows inp orc inp.rows 0 initGenState
  { status := "done"
    docxEntries := final.docxEntries
    pdfEntries := final.pdfEntries
    emailQueue := final.emailQueue
    rowLogs := final.rowLogs
    current := inp.rows.length
    total := inp.rows.length
    dispatchTriggered := decide (final.emailQueue ≠ []) }

theorem endsWithCI_docx_append (x : List Char) :
    endsWithCI ".docx".data (x ++ ".docx".data) = true := by
  rw [endsWithCI]
  have h5 : (".docx".data).length = 5 := by decide
  have hlen : (x ++ ".docx".data).length = x.length + 5 := by simp [h5]
  rw [Bool.and_eq_true, decide_eq_true_eq, decide_eq_true_eq]
  constructor
  · omega
  · have harith : (x ++ ".docx".data).length - (".docx".data).length = x.length := by omega
    rw [harith, List.drop_left]
    decide

theorem ensureDocxExt (x : List Char) :
    endsWithCI ".docx".data
      (if endsWithCI ".docx".data x = true then x else x ++ ".docx".data) = true := by
  split
  · assumption
  · exact endsWithCI_docx_append x

theorem rowBaseFilename_docx (inp : GenInput) (idx : Nat) (row : Row) :
    endsWithCI ".docx".data (rowBaseFilename inp idx row) = true :=
  ensureDocxExt _

theorem docxBufferToPdf_none_warn (ms lo pp : Option Buf)
    (h : (docxBufferToPdf ms lo pp).1 = none) : (docxBufferToPdf ms lo pp).2 = true := by
  cases hms : convertWithMsOffice ms with
  | some b =>
    exfalso
    simp [docxBufferToPdf, hms] at h
  | none =>
    cases hlo : convertWithLibreOffice lo with
    | some b =>
      exfalso
      simp [docxBufferToPdf, hms, hlo] at h
    | none =>
      simp [docxBufferToPdf, hms, hlo]

theorem emailUpdate_invalid (inp : GenInput) (row : Row) (pdfName : List Char)
    (chainRes : Option Buf) (queue : List (String × EmailQueueItem)) (attach : AttachNames) :
    (emailUpdate inp row pdfName chainRes false queue attach).1 = queue ∧
    (emailUpdate inp row pdfName chainRes false queue attach).2.1 = attach := by
  constructor
  · rw [emailUpdate]
    split
    · split
      · by_cases hu : dedupRecipients
            (parseRecipients (getRowValue row inp.emailColumn).data) = []
        · simp [hu]
        · simp [hu]
      · exact absurd rfl (by assumption)
    · rfl
  · rw [emailUpdate]
    split
    · split
      · by_cases hu : dedupRecipients
            (parseRecipients (getRowValue row inp.emailColumn).data) = []
        · simp [hu]
        · simp [hu]
      · exact absurd rfl (by assumption)
    · rfl

theorem runRows_docx_names (inp : GenInput) (orc : GenOracles) :
    ∀ (rows : List Row) (idx : Nat) (st : GenState),
    (∀ n ∈ st.docxEntries.map Prod.fst, n ∈ st.usedNames) →
    (st.docxEntries.map Prod.fst).Nodup →
    ((runRows inp orc rows idx st).docxEntries.map Prod.fst).Nodup ∧
    (runRows inp orc rows idx st).docxEntries.length =
      st.docxEntries.length + rows.length := by
  intro rows
  induction rows with
  | nil =>
    intro idx st hsub hnodup
    exact ⟨hnodup, by simp [runRows]⟩
  | cons row rest ih =>
    intro idx st hsub hnodup
    rw [runRows]
    have hfn := rowBaseFilename_docx inp idx row
    have hfree : uniqueName st.usedNames (rowBaseFilename inp idx row) ∉ st.usedNames :=
      (uniqueName_spec _ _ hfn).1
    have h1 : (processGenRow inp orc idx row st).docxEntries =
        st.docxEntries ++ [(uniqueName st.usedNames (rowBaseFilename inp idx row),
          orc.render idx (buildData inp.placeholders inp.mapping row))] := rfl
    have h2 : (processGenRow inp orc idx row st).usedNames =
        uniqueName st.usedNames (rowBaseFilename inp idx row) :: st.usedNames := rfl
    have hsub' : ∀ n ∈ (processGenRow inp orc idx row st).docxEntries.map Prod.fst,
        n ∈ (processGenRow inp orc idx row st).usedNames := by
      intro n hn
      rw [h1] at hn
      rw [h2]
      simp only [List.map_append, List.map_cons, List.map_nil, List.mem_append,
        List.mem_singleton] at hn
      rcases hn with hn | hn
      · exact List.mem_cons_of_mem _ (hsub n hn)
      · rw [hn]; exact List.mem_cons_self _ _
    have hnodup' : ((processGenRow inp orc idx row st).docxEntries.map Prod.fst).Nodup := by
      rw [h1]
      simp only [List.map_append, List.map_cons, List.map_nil]
      rw [List.nodup_append]
      refine ⟨hnodup, List.nodup_singleton _, ?_⟩
      intro n hn hn'
      rw [List.mem_singleton] at hn'
      rw [hn'] at hn
      exact hfree (hsub _ hn)
    obtain ⟨ha, hb⟩ := ih (idx + 1) (processGenRow inp orc idx row st) hsub' hnodup'
    refine ⟨ha, ?_⟩
    rw [hb, h1]
    simp
    omega

/-- Failure of the conversion chain (no result, or a result that fails the
PDF signature verification) for the document of one row index. -/
def convFails (orc : GenOracles) (idx : Nat) : Prop :=
  match (docxBufferToPdf (orc.ms idx) (orc.lo idx) (orc.pp idx)).1 with
  | some b => isPdfBuffer b = false
  | none => True


theorem processGenRow_invalid_state (inp : GenInput) (orc : GenOracles) (idx : Nat)
    (row : Row) (st : GenState) (h : convFails orc idx) :
    (processGenRow inp orc idx row st).pdfEntries = st.pdfEntries ∧
    (processGenRow inp orc idx row st).emailQueue = st.emailQueue := by
  rw [convFails] at h
  cases hc : (docxBufferToPdf (orc.ms idx) (orc.lo idx) (orc.pp idx)).1 with
  | none =>
    refine ⟨?_, ?_⟩
    · simp only [processGenRow, hc]
    · simp only [processGenRow, hc]
      exact (emailUpdate_invalid inp row _ none st.emailQueue st.usedAttach).1
  | some b =>
    rw [hc] at h
    refine ⟨?_, ?_⟩
    · simp only [processGenRow, hc, h]
      simp
    · simp only [processGenRow, hc, h]
      exact (emailUpdate_invalid inp row _ (some b) st.emailQueue st.usedAttach).1

theorem processGenRow_log_nonempty (inp : GenInput) (orc : GenOracles) (idx : Nat)
    (row : Row) (st : GenState) (h : convFails orc idx) :
    ∃ e, (processGenRow inp orc idx row st).rowLogs = st.rowLogs ++ [e] ∧ e ≠ [] := by
  refine ⟨_, rfl, ?_⟩
  rw [convFails] at h
  cases hc : (docxBufferToPdf (orc.ms idx) (orc.lo idx) (orc.pp idx)).1 with
  | none =>
    have hwarn := docxBufferToPdf_none_warn _ _ _ hc
    simp [hc, hwarn]
  | some b =>
    rw [hc] at h
    simp [hc, h]

theorem runRows_allfail (inp : GenInput) (orc : GenOracles) :
    ∀ (rows : List Row) (s : Nat) (st : GenState),
    (∀ i, i < rows.length → convFails orc (s + i)) →
    (runRows inp orc rows s st).pdfEntries = st.pdfEntries ∧
    (runRows inp orc rows s st).emailQueue = st.emailQueue ∧
    (runRows inp orc rows s st).rowLogs.length = st.rowLogs.length + rows.length ∧
    (∀ log ∈ (runRows inp orc rows s st).rowLogs, log ∈ st.rowLogs ∨ log ≠ []) := by
  intro rows
  induction rows with
  | nil =>
    intro s st _
    refine ⟨rfl, rfl, by simp [runRows], ?_⟩
    intro log hlog
    exact Or.inl hlog
  | cons row rest ih =>
    intro s st hfail
    rw [runRows]
    have hrow : convFails orc s := by
      have := hfail 0 (by simp)
      simpa using this
    obtain ⟨hpdf, hqueue⟩ := processGenRow_invalid_state inp orc s row st hrow
    obtain ⟨e, hlogs, hene⟩ := processGenRow_log_nonempty inp orc s row st hrow
    have hfail' : ∀ i, i < rest.length → convFails orc ((s + 1) + i) := by
      intro i hi
      have := hfail (i + 1) (by simp; omega)
      have harg : s + (i + 1) = (s + 1) + i := by omega
      rw [harg] at this
      exact this
    obtain ⟨ih1, ih2, ih3, ih4⟩ := ih (s + 1) (processGenRow inp orc s row st) hfail'
    refine ⟨by rw [ih1, hpdf], by rw [ih2, hqueue], ?_, ?_⟩
    · rw [ih3, hlogs]
      simp
      omega
    · intro log hlog
      rcases ih4 log hlog with hmem | hne
      · rw [hlogs] at hmem
        rcases List.mem_append.mp hmem with hmem | hmem
        · exact Or.inl hmem
        · rw [List.mem_singleton] at hmem
          rw [hmem]
          exact Or.inr hene
      · exact Or.inr hne

/-- C7: a generate job over N dataset rows produces exactly N documents
with pairwise-distinct archive filenames; a collision of the expanded name
is resolved deterministically by the numeric-suffix loop, which tries the
expanded name and then the `_2`, `_3`, ... suffixed variants (inserted
before the extension) in order until an unused name is found. -/
theorem C7_distinct_filenames (inp : GenInput) (orc : GenOracles) :
    (runGenerateJob inp orc).docxEntries.length = inp.rows.length ∧
    ((runGenerateJob inp orc).docxEntries.map Prod.fst).Nodup ∧
    (∀ (used : List (List Char)) (f : List Char), endsWithCI ".docx".data f = true →
      uniqueName used f ∉ used ∧
      (f ∉ used → uniqueName used f = f) ∧
      (f ∈ used → ∃ k, 2 ≤ k ∧ uniqueName used f = suffixedName f k ∧
        ∀ j, 2 ≤ j → j < k → suffixedName f j ∈ used)) := by
  have h := runRows_docx_names inp orc inp.rows 0 initGenState
    (by simp [initGenState]) (by simp [initGenState])
  refine ⟨?_, h.1, fun used f hf => uniqueName_spec used f hf⟩
  simpa [initGenState] using h.2

/-- Witness for C7's collision mechanism at concrete names. -/
theorem C7_distinct_filenames_witness :
    uniqueName [] "doc.docx".data = "doc.docx".data ∧
    uniqueName ["doc.docx".data] "doc.docx".data ∉ ["doc.docx".data] := by
  have h := C7_distinct_filenames
    ⟨[], [], [], "doc.docx".data, "", ""⟩
    ⟨fun _ _ => [], fun _ => none, fun _ => none, fun _ => none⟩
  refine ⟨(h.2.2 [] "doc.docx".data (by decide)).2.1 (by decide),
    (h.2.2 ["doc.docx".data] "doc.docx".data (by decide)).1⟩

/-- C4: when the conversion chain fails verification for every row, the
generate job still reaches status done, the rendered DOCX artifact of every
row is kept in the result archive, the converted archive stays empty, zero
emails are queued (so the background dispatch never starts and nothing is
sent), and every affected row records at least one warning — no row's
conversion failure fails the whole job. -/
theorem C4_all_conversions_fail (inp : GenInput) (orc : GenOracles)
    (hfail : ∀ idx, idx < inp.rows.length → convFails orc idx) :
    (runGenerateJob inp orc).status = "done" ∧
    (runGenerateJob inp orc).docxEntries.length = inp.rows.length ∧
    (runGenerateJob inp orc).pdfEntries = [] ∧
    (runGenerateJob inp orc).emailQueue = [] ∧
    (runGenerateJob inp orc).dispatchTriggered = false ∧
    (runGenerateJob inp orc).rowLogs.length = inp.rows.length ∧
    (∀ log ∈ (runGenerateJob inp orc).rowLogs, log ≠ []) := by
  have hN := runRows_docx_names inp orc inp.rows 0 initGenState
    (by simp [initGenState]) (by simp [initGenState])
  obtain ⟨hpdf, hqueue, hlen, hmem⟩ := runRows_allfail inp orc inp.rows 0 initGenState
    (by intro i hi; simpa using hfail i hi)
  refine ⟨rfl, ?_, ?_, ?_, ?_, ?_, ?_⟩
  · simpa [initGenState] using hN.2
  · simpa [initGenState] using hpdf
  · simpa [initGenState] using hqueue
  · show decide ((runRows inp orc inp.rows 0 initGenState).emailQueue ≠ []) = false
    rw [hqueue]
    simp [initGenState]
  · simpa [initGenState] using hlen
  · intro log hlog
    rcases hmem log hlog with h | h
    · simp [initGenState] at h
    · exact h

/-- Witness for C4 on a concrete one-row job whose backends all fail. -/
theorem C4_all_conversions_fail_witness :
    (runGenerateJob ⟨[[("c1", "A")]], [⟨"k1", "c1", "", ""⟩], ["k1"], "doc.docx".data, "", ""⟩
      ⟨fun _ _ => [], fun _ => none, fun _ => none, fun _ => none⟩).status = "done" ∧
    (runGenerateJob ⟨[[("c1", "A")]], [⟨"k1", "c1", "", ""⟩], ["k1"], "doc.docx".data, "", ""⟩
      ⟨fun _ _ => [], fun _ => none, fun _ => none, fun _ => none⟩).emailQueue = [] ∧
    (runGenerateJob ⟨[[("c1", "A")]], [⟨"k1", "c1", "", ""⟩], ["k1"], "doc.docx".data, "", ""⟩
      ⟨fun _ _ => [], fun _ => none, fun _ => none, fun _ => none⟩).rowLogs.length = 1 := by
  have h := C4_all_conversions_fail
    ⟨[[("c1", "A")]], [⟨"k1", "c1", "", ""⟩], ["k1"], "doc.docx".data, "", ""⟩
    ⟨fun _ _ => [], fun _ => none, fun _ => none, fun _ => none⟩
    (by intro idx _; exact trivial)
  exact ⟨h.1, h.2.2.2.1, h.2.2.2.2.2.1⟩
